import Mathlib

/- Verification development for the bfg9000 make backend.

   Shallow embedding of:
   - src/bfg9000/backends/make/syntax.py  (Writer, Pattern, Variable, Makefile)
   - src/bfg9000/environment.py           (Environment.linker)
   - src/bfg9000/tools/msvc.py            (MsvcLinker.can_link,
                                           MsvcSharedLibraryLinker.output_file)
   - src/bfg9000/file_types.py            (DllBinary, LinkLibrary, ExportFile)

   Text is modelled as lists of characters (`Chars`), fallible code returns
   `Except String`, and the mutable `Makefile` object becomes explicit state
   passing where a failing operation returns the state at the moment of the
   raise (matching Python exceptions leaving prior in-place mutations). -/

abbrev Chars := List Char

/-- The `Syntax` enum of backends/make/syntax.py line 23:
`Syntax = Enum('Syntax', ['target', 'dependency', 'function', 'shell', 'clean'])`. -/
inductive Syn where
  | target
  | dependency
  | function
  | shell
  | clean
deriving DecidableEq

/-- The `Section` enum of backends/make/syntax.py line 24:
`Section = Enum('Section', ['path', 'command', 'flags', 'other'])`. -/
inductive MSection where
  | path
  | command
  | flags
  | other
deriving DecidableEq

/-- Python's regex class `\s` restricted to the ASCII range: the six
whitespace characters space, tab, newline, carriage return, vertical tab
and form feed.  (The embedding models ASCII text.) -/
def isPySpace (c : Char) : Bool :=
  c == ' ' || c == '\t' || c == '\n' || c == '\r' || c == '\x0b' || c == '\x0c'

/-- Helper: apply a character-to-string substitution to every character,
modelling Python's `str.replace` for single-character needles. -/
def charExpand (f : Char → Chars) : Chars → Chars
  | [] => []
  | c :: cs => f c ++ charExpand f cs

/-- `string.replace('$', '$$')` (backends/make/syntax.py line 70). -/
def dollarDouble : Chars → Chars :=
  charExpand (fun c => if c == '$' then ['$', '$'] else [c])

/-- `result.replace(',', '$,')` (backends/make/syntax.py line 77). -/
def commaRepl : Chars → Chars :=
  charExpand (fun c => if c == ',' then ['$', ','] else [c])

/-- Length of the maximal leading run of backslashes, as matched by the
greedy regex group `(\\*)`. -/
def leadBS : Chars → Nat
  | [] => 0
  | c :: cs => if c == '\\' then leadBS cs + 1 else 0

/-- Operational model of `re.sub(r'(\\*)(^~|[...])', repl, s)` with
`repl = match.group(1) * 2 + '\\' + match.group(2)`
(backends/make/syntax.py lines 57-58 and 65-66, applied at lines 73/75).
The scan walks left to right; at a position the engine matches the greedy
backslash run followed by either an escapable class character or — only at
the very start of the string with an empty run — a `~`.  On a match the run
is doubled and a backslash inserted before the matched character; otherwise
the engine advances one character.  `fuel` bounds recursion and is always
called with more fuel than the string length. -/
def subScanF (esc : Char → Bool) : Nat → Bool → Chars → Chars
  | 0, _, l => l
  | n + 1, atStart, l =>
    match l.drop (leadBS l) with
    | [] => l
    | c :: cs =>
      if esc c then
        List.replicate (2 * leadBS l) '\\' ++ '\\' :: c :: subScanF esc n false cs
      else if atStart && leadBS l == 0 && c == '~' then
        '\\' :: '~' :: subScanF esc n false cs
      else
        match l with
        | [] => []
        | h :: t => h :: subScanF esc n false t

/-- The regex substitution at adequate fuel. -/
def subScan (esc : Char → Bool) (atStart : Bool) (l : Chars) : Chars :=
  subScanF esc (l.length + 1) atStart l

/-- The escape class for `Syntax.target`
(`__escape_chars = r'?*\[\]\s#%' + __extra_escapes`, where
`__extra_escapes` is `':'` except on Windows-family hosts;
backends/make/syntax.py lines 55-57).  `w` is true when the host platform
family is windows. -/
def targetEscChar (w : Bool) (c : Char) : Bool :=
  c == '?' || c == '*' || c == '[' || c == ']' || isPySpace c || c == '#' ||
    c == '%' || (!w && c == ':')

/-- The escape class for `Syntax.dependency`: the target class plus `|`
(backends/make/syntax.py line 58). -/
def depEscChar (w : Bool) (c : Char) : Bool :=
  c == '|' || targetEscChar w c

/-- `Writer.escape_str` (backends/make/syntax.py lines 63-83): raise on an
embedded newline, double every `$`, then apply the per-context
substitution.  The final `raise ValueError("unknown syntax ...")` is
unreachable here because `Syn` is closed. -/
def Writer.escape_str (w : Bool) (s : Chars) (sy : Syn) : Except String Chars :=
  if '\n' ∈ s then .error "illegal newline"
  else
    let result := dollarDouble s
    match sy with
    | .target => .ok (subScan (targetEscChar w) true result)
    | .dependency => .ok (subScan (depEscChar w) true result)
    | .function => .ok (commaRepl result)
    | .shell => .ok result
    | .clean => .ok result

/-- Spec-side single pass over the `$`-doubled text: a pending count of not
yet emitted backslashes is kept; an escapable character doubles the pending
run and is preceded by one extra backslash, any other character flushes the
run unchanged.  This is the claim's wording "any run of backslashes
immediately preceding an escaped character is doubled". -/
def scanAux (esc : Char → Bool) : Nat → Chars → Chars
  | pend, [] => List.replicate pend '\\'
  | pend, c :: cs =>
    if c == '\\' then scanAux esc (pend + 1) cs
    else if esc c then
      List.replicate (2 * pend) '\\' ++ '\\' :: c :: scanAux esc 0 cs
    else
      List.replicate pend '\\' ++ c :: scanAux esc 0 cs

/-- Spec-side target/dependency escaping: a leading `~` is backslash-escaped,
then the run-doubling scan handles the context's escape class. -/
def specTD (esc : Char → Bool) (l : Chars) : Chars :=
  match l with
  | [] => scanAux esc 0 []
  | c :: cs => if c = '~' then '\\' :: '~' :: scanAux esc 0 cs else scanAux esc 0 (c :: cs)

/-- The spec's per-context escaping table (claim C1): every `$` doubled
first; under Target/Dependency the class characters are backslash-escaped
with preceding backslash runs doubled and a leading `~` escaped; under
FunctionArgument each comma becomes `$,`; Shell and Unescaped add nothing. -/
def specEscape (w : Bool) (sy : Syn) (s : Chars) : Chars :=
  let d := dollarDouble s
  match sy with
  | .target => specTD (targetEscChar w) d
  | .dependency => specTD (depEscChar w) d
  | .function => commaRepl d
  | .shell => d
  | .clean => d

/-- The safe-string value algebra the Writer dispatches on
(backends/make/syntax.py lines 93-124).  `txt` is a plain Python `str`;
`lit` and `shl` model `safe_str.literal` and `safe_str.shell_literal`
(module safe_str is not under src/; modelled from the spec: the SafeString
variants `Literal(text)` — emit verbatim, never escaped — and
`BackendLiteral(text)` — verbatim but still context-escaped); `syn` is the
`syntax_string` class of backends/make/syntax.py lines 33-46 (the spec's
ContextOverride); `jbos` models `safe_str.jbos` (the spec's Concatenation).
The `BasePath` branch of `Writer.write` is outside this value domain and
the trailing `raise TypeError` is unreachable because the type is closed. -/
inductive SStr where
  | txt (s : Chars)
  | lit (s : Chars)
  | shl (s : Chars)
  | syn (data : SStr) (sy : Option Syn) (quoted : Bool)
  | jbos (bits : List SStr)

/-- A shell-quoting function: text to possibly-quoted text plus a
"was quoted" flag, the shape `Writer.write` expects of `shell_quote`. -/
abbrev QuoteFn := Chars → Chars × Bool

/-- Modelled from the spec: `pshell.wrap_quotes` (bfg9000/shell/posix.py is
not under src/) wraps already-rendered text "in the backend shell's quote
syntax"; POSIX single quotes. -/
def wrapQuotes (s : Chars) : Chars := '\'' :: s ++ ['\'']

/-- Characters that force quoting in the modelled POSIX shell word. -/
def needsQuote (c : Char) : Bool :=
  !(c.isAlphanum || c == '@' || c == '%' || c == '+' || c == '=' || c == ':' ||
    c == ',' || c == '.' || c == '/' || c == '-' || c == '_')

/-- Rewrite of embedded single quotes used when quoting a POSIX word. -/
def escapeSq : Chars → Chars :=
  charExpand (fun c => if c == '\'' then ['\'', '\\', '\'', '\''] else [c])

/-- Modelled from the spec: `pshell.quote_info` (bfg9000/shell/posix.py is
not under src/).  The spec says a shell context first asks the quoting
function "whether/how to quote the *unescaped* text (producing quoted text
plus a flag)"; this model quotes exactly when the text is empty or holds a
character unsafe in a POSIX shell word. -/
def quoteInfo (s : Chars) : Chars × Bool :=
  if s.isEmpty then (wrapQuotes [], true)
  else if s.any needsQuote then (wrapQuotes (escapeSq s), true)
  else (s, false)

mutual

/-- `Writer.write` (backends/make/syntax.py lines 88-126) on the
safe-string algebra, fuelled so recursion is structural and evaluation by
the kernel is possible; the public wrapper always supplies enough fuel.
Returns the emitted text plus the `escaped` flag the source returns. -/
def wwriteF (w : Bool) : Nat → SStr → Syn → Option QuoteFn → Except String (Chars × Bool)
  | 0, _, _, _ => .error "fuel exhausted"
  | _ + 1, SStr.lit s, _, _ => .ok (s, true)
  | _ + 1, SStr.shl s, sy, _ => (Writer.escape_str w s sy).map (fun e => (e, true))
  | _ + 1, SStr.txt s, sy, qf =>
    let shelly := sy == Syn.function || sy == Syn.shell
    let q := if shelly then
        (match qf with
         | some f => f s
         | none => (s, false))
      else (s, false)
    (Writer.escape_str w q.1 sy).map (fun e => (e, q.2))
  | n + 1, SStr.syn d osy quoted, sy, qf =>
    match wwriteF w n d (osy.getD sy) (if quoted then none else qf) with
    | .error e => .error e
    | .ok (r, esc) => .ok ((if quoted then wrapQuotes r else r), esc)
  | n + 1, SStr.jbos bits, sy, qf => wwriteListF w n bits sy qf

/-- The `jbos` loop of `Writer.write` (lines 111-113): each bit written in
sequence under the same context, the escaped flags or-ed. -/
def wwriteListF (w : Bool) : Nat → List SStr → Syn → Option QuoteFn → Except String (Chars × Bool)
  | 0, _, _, _ => .error "fuel exhausted"
  | _ + 1, [], _, _ => .ok ([], false)
  | n + 1, b :: rest, sy, qf =>
    match wwriteF w n b sy qf with
    | .error e => .error e
    | .ok (r, e1) =>
      match wwriteListF w n rest sy qf with
      | .error e => .error e
      | .ok (rs, e2) => .ok (r ++ rs, e1 || e2)

end

mutual

/-- Structural depth of a safe-string value, used as writer fuel. -/
def SStr.depth : SStr → Nat
  | .txt _ => 1
  | .lit _ => 1
  | .shl _ => 1
  | .syn d _ _ => d.depth + 1
  | .jbos bits => SStr.depthList bits + 1

/-- Structural depth of a list of safe-string values. -/
def SStr.depthList : List SStr → Nat
  | [] => 1
  | b :: bs => b.depth + SStr.depthList bs + 1

end

/-- `Writer.write` at adequate fuel: the depth measure strictly bounds the
fuel consumed on every recursion path, so the fuel case is unreachable. -/
def Writer.write (w : Bool) (t : SStr) (sy : Syn) (qf : Option QuoteFn) :
    Except String (Chars × Bool) :=
  wwriteF w t.depth t sy qf

mutual

/-- The raw character content of a safe-string value, ignoring the
escaping and quoting annotations. -/
def SStr.text : SStr → Chars
  | .txt s => s
  | .lit s => s
  | .shl s => s
  | .syn d _ _ => d.text
  | .jbos bits => SStr.textList bits

/-- Concatenated raw content of a list of safe-string values. -/
def SStr.textList : List SStr → Chars
  | [] => []
  | b :: bs => b.text ++ SStr.textList bs

end

/-- Count of the matches of `re.findall(r'((?<=[^\\])|^)(\\\\)*%', path)`
(backends/make/syntax.py line 171): at a position whose lookbehind allows
a match (string start, or just after a non-backslash), the engine matches
an even run of backslashes followed by `%` and resumes after it; a failed
attempt advances one character, the next lookbehind governed by the
character stepped over.  Fuelled; the wrapper supplies enough fuel. -/
def reFindCountF : Nat → Bool → Chars → Nat
  | 0, _, _ => 0
  | n + 1, bOk, l =>
    if bOk && ((l.drop (leadBS l)).head? == some '%') && (leadBS l % 2 == 0) then
      1 + reFindCountF n true (l.drop (leadBS l + 1))
    else
      match l with
      | [] => 0
      | c :: cs => reFindCountF n (!(c == '\\')) cs

/-- The findall count at adequate fuel. -/
def reFindCount (l : Chars) : Nat := reFindCountF (l.length + 1) true l

/-- Spec-side count of unescaped wildcard markers: a `%` counts exactly
when the maximal backslash run immediately before it has even length. -/
def parityAux (even : Bool) : Chars → Nat
  | [] => 0
  | c :: cs =>
    if c == '\\' then parityAux (!even) cs
    else if c == '%' then (if even then 1 else 0) + parityAux true cs
    else parityAux true cs

/-- Number of unescaped `%` markers of a Pattern template. -/
def parityCount (l : Chars) : Nat := parityAux true l

/-- The `Pattern` entity (backends/make/syntax.py lines 169-186). -/
structure Pat where
  path : Chars

/-- `Pattern.__init__` (lines 170-173): raise unless the findall count is
exactly one. -/
def mkPattern (path : Chars) : Except String Pat :=
  if reFindCount path ≠ 1 then .error "exactly one % required" else .ok ⟨path⟩

/-- `re.split(r'%', path)` (line 176): the pieces between every `%`. -/
def splitPct : Chars → List Chars
  | [] => [[]]
  | c :: cs =>
    if c == '%' then [] :: splitPct cs
    else
      match splitPct cs with
      | [] => [[c]]
      | p :: ps => (c :: p) :: ps

/-- `safe_str.join(bits, literal('%'))` applied to the split pieces
(safe_str is not under src/; modelled from the spec: `Pattern.render`
"splits the template on its single wildcard marker and rejoins with a
literal percent sign"): text bits joined by the never-escaped literal
`%`. -/
def joinBits : List Chars → List SStr
  | [] => []
  | [b] => [SStr.txt b]
  | b :: bs => SStr.txt b :: SStr.lit ['%'] :: joinBits bs

/-- `Pattern.use` (lines 175-177). -/
def Pat.use (p : Pat) : SStr := SStr.jbos (joinBits (splitPct p.path))

/-- Joining pieces back with a `%` between consecutive pieces. -/
def joinWithPct : List Chars → Chars
  | [] => []
  | [b] => b
  | b :: bs => b ++ '%' :: joinWithPct bs

/-- `Variable.__init__` name sanitization (backends/make/syntax.py line
191): `re.sub(r'[\s:#=]', '_', name)` replaces every whitespace, `:`, `#`
and `=` character with an underscore. -/
def sanitizeName : Chars → Chars :=
  List.map (fun c => if isPySpace c || c == ':' || c == '#' || c == '=' then '_' else c)

/-- The `Variable` entity (lines 189-198): sanitized name plus quote flag.
Equality, as used by the variable table, compares names only
(`NamedEntity.__eq__`/`__hash__`, lines 159-163). -/
structure MakeVar where
  name : Chars
  quoted : Bool

/-- `Variable(name, quoted)`: the name is sanitized at construction. -/
def mkVariable (raw : Chars) (quoted : Bool) : MakeVar := ⟨sanitizeName raw, quoted⟩

/-- `Variable.use` (lines 194-198): `$X` for a one-character name, else
`$(NAME)`; the whole reference is shell-quoted when the flag is set. -/
def MakeVar.use (v : MakeVar) : SStr :=
  let inner := if v.name.length = 1 then '$' :: v.name else '$' :: '(' :: (v.name ++ [')'])
  SStr.lit (if v.quoted then wrapQuotes inner else inner)

/-- Variable values and recipe commands: a scalar safe-string or a list.
`iterutils.iterate` (iterutils is not under src/; modelled from the spec's
use: multi-valued arguments are iterated elementwise, a scalar stands
alone) yields the elements written by `write_shell`. -/
inductive MValue where
  | one (v : SStr)
  | many (l : List SStr)

/-- `iterutils.iterate` on the value domain. -/
def iterateVal : MValue → List SStr
  | .one v => [v]
  | .many l => l

/-- A shell-written value with the `Silent` wrapper flag
(backends/make/syntax.py lines 235-237, consumed at lines 133-138). -/
structure ShellVal where
  silent : Bool
  val : MValue

/-- Rule recipes (lines 324-326, 381-387): absent, a single inline Entity
(carried as its rendered use-value), or a list of commands. -/
inductive MRecipe where
  | noRecipe
  | inline (v : SStr)
  | cmds (l : List ShellVal)

/-- The `Rule` record (lines 19-20); the source field `variables` is
spelled `vars` because `variables` is a Lean keyword. -/
structure MRule where
  targets : List SStr
  deps : List SStr
  order_only : List SStr
  recipe : MRecipe
  vars : List (MakeVar × ShellVal)
  phony : Bool

/-- The `Include` record (line 21). -/
structure MInclude where
  name : SStr
  optional : Bool

/-- The `Makefile` object state (lines 251-264): the global variable-name
table, the four per-section buckets of global variables, the target-scoped
variables, the defines, the rules, the claimed target strings and the
include directives. -/
structure Makefile where
  bfgfile : Chars
  gnu : Bool
  var_table : List MakeVar
  gpath : List (MakeVar × ShellVal)
  gcommand : List (MakeVar × ShellVal)
  gflags : List (MakeVar × ShellVal)
  gother : List (MakeVar × ShellVal)
  target_variables : List (MakeVar × ShellVal)
  defines : List (MakeVar × List ShellVal)
  rules : List MRule
  targets : List Chars
  includes : List MInclude

/-- `Makefile.__init__` (lines 254-264). -/
def Makefile.init (bfgfile : Chars) (gnu : Bool) : Makefile :=
  ⟨bfgfile, gnu, [], [], [], [], [], [], [], [], [], []⟩

/-- The global-variable bucket of a section. -/
def Makefile.globalsOf (st : Makefile) : MSection → List (MakeVar × ShellVal)
  | .path => st.gpath
  | .command => st.gcommand
  | .flags => st.gflags
  | .other => st.gother

/-- Append a global variable to its section's bucket (line 271). -/
def Makefile.appendGlobal (st : Makefile) (s : MSection)
    (nv : MakeVar × ShellVal) : Makefile :=
  match s with
  | .path => { st with gpath := st.gpath ++ [nv] }
  | .command => { st with gcommand := st.gcommand ++ [nv] }
  | .flags => { st with gflags := st.gflags ++ [nv] }
  | .other => { st with gother := st.gother ++ [nv] }

/-- `Makefile.has_variable` (lines 293-294): membership in the name table
under `Variable` equality, which compares sanitized names only. -/
def Makefile.has_variable (st : Makefile) (v : MakeVar) : Bool :=
  st.var_table.any (fun x => x.name == v.name)

/-- `Command.convert_args` normalization (tools/common.py is not under
src/; modelled from the spec: "resolving any embedded tool-command
references to their backing variable").  The embedded value domain carries
no tool-command references, on which the normalization is the identity. -/
def convert_args (v : ShellVal) : ShellVal := v

/-- `Makefile._unique_var` (lines 296-302): raise when the name exists and
redeclaration is not allowed; otherwise add it to the table (a no-op when
it is already there) and report existence. -/
def Makefile.unique_var (st : Makefile) (v : MakeVar) (exist_ok : Bool) :
    Makefile × Except String (MakeVar × Bool) :=
  let ex := st.has_variable v
  if ex && !exist_ok then (st, .error "variable already exists")
  else ({ st with var_table := if ex then st.var_table else st.var_table ++ [v] },
        .ok (v, ex))

/-- `Makefile.variable` (lines 267-272); spelled `addVariable` (the
spec's declareVariable) because `variable` is a Lean keyword.  A fresh
name gets its (normalized) value appended to the section bucket; an
existing one records nothing. -/
def Makefile.addVariable (st : Makefile) (name : Chars) (value : ShellVal)
    (sec : MSection) (exist_ok : Bool) : Makefile × Except String MakeVar :=
  match st.unique_var (mkVariable name false) exist_ok with
  | (st1, .error e) => (st1, .error e)
  | (st1, .ok (v, ex)) =>
    if ex then (st1, .ok v)
    else (st1.appendGlobal sec (v, convert_args value), .ok v)

/-- `Makefile.target_variable` (lines 274-279). -/
def Makefile.target_variable (st : Makefile) (name : Chars) (value : ShellVal)
    (exist_ok : Bool) : Makefile × Except String MakeVar :=
  match st.unique_var (mkVariable name false) exist_ok with
  | (st1, .error e) => (st1, .error e)
  | (st1, .ok (v, ex)) =>
    if ex then (st1, .ok v)
    else ({ st1 with target_variables := st1.target_variables ++ [(v, convert_args value)] },
          .ok v)

/-- `Makefile.define` (lines 281-287). -/
def Makefile.define (st : Makefile) (name : Chars) (value : List ShellVal)
    (exist_ok : Bool) : Makefile × Except String MakeVar :=
  match st.unique_var (mkVariable name false) exist_ok with
  | (st1, .error e) => (st1, .error e)
  | (st1, .ok (v, ex)) =>
    if ex then (st1, .ok v)
    else ({ st1 with defines := st1.defines ++ [(v, value.map convert_args)] }, .ok v)

/-- `Makefile.include` (lines 304-305), the spec's addInclude;
`include` is a Lean keyword. -/
def Makefile.addInclude (st : Makefile) (name : SStr) (optional : Bool) : Makefile :=
  { st with includes := st.includes ++ [⟨name, optional⟩] }

/-- `Makefile._target_str` (lines 307-311): render one target under the
target context with the default shell-quote function. -/
def Makefile.target_str (w : Bool) (name : SStr) : Except String Chars :=
  (Writer.write w name Syn.target (some quoteInfo)).map (fun r => r.1)

/-- `Makefile.has_rule` (lines 334-335). -/
def Makefile.has_rule (st : Makefile) (name : Chars) : Bool :=
  st.targets.contains name

/-- The target-claiming loop of `Makefile.rule` (lines 318-322): each
target is rendered, checked and registered in order, so a failure on a
later target leaves the earlier ones registered (no rollback). -/
def Makefile.ruleClaim (w : Bool) : Makefile → List SStr → Makefile × Except String Unit
  | st, [] => (st, .ok ())
  | st, i :: rest =>
    match Makefile.target_str w i with
    | .error e => (st, .error e)
    | .ok tname =>
      if st.has_rule tname then (st, .error "rule already exists")
      else Makefile.ruleClaim w { st with targets := st.targets ++ [tname] } rest

/-- The recipe normalization of `Makefile.rule` (lines 324-325):
`convert_args` is applied per command when the recipe is iterable; an
Entity or absent recipe is untouched. -/
def convertRecipe : MRecipe → MRecipe
  | .noRecipe => .noRecipe
  | .inline v => .inline v
  | .cmds l => .cmds (l.map convert_args)

/-- `Makefile.rule` (lines 313-332): an empty target list raises; an
already claimed rendered target raises; otherwise the rule is appended
with its target-scoped variables keyed by `Variable`s. -/
def Makefile.rule (w : Bool) (st : Makefile) (target : List SStr)
    (deps : List SStr) (order_only : List SStr) (recipe : MRecipe)
    (vars : List (Chars × ShellVal)) (phony : Bool) :
    Makefile × Except String Unit :=
  if target.isEmpty then (st, .error "must have at least one target")
  else
    match Makefile.ruleClaim w st target with
    | (st1, .error e) => (st1, .error e)
    | (st1, .ok _) =>
      ({ st1 with rules := st1.rules ++
          [⟨target, deps, order_only, convertRecipe recipe,
            vars.map (fun p => (mkVariable p.1 false, p.2)), phony⟩] },
       .ok ())

/-- `iterutils.tween(things, delim, prefix, suffix)` (iterutils is not
under src/; modelled from the spec/use: the delimiter goes between
consecutive items, the optional prefix before the first item and suffix
after the last, and an empty sequence yields nothing at all). -/
def tween (things : List SStr) (delim : SStr) (pre suf : Option SStr) : List SStr :=
  if things.isEmpty then []
  else pre.toList ++ List.intersperse delim things ++ suf.toList

/-- `Writer.write_each` (backends/make/syntax.py lines 128-131). -/
def writeEach (w : Bool) (things : List SStr) (sy : Syn) (delim : SStr)
    (pre suf : Option SStr) (qf : Option QuoteFn) : Except String Chars :=
  (tween things delim pre suf).foldlM
    (fun acc t => (Writer.write w t sy qf).map (fun r => acc ++ r.1)) ([] : Chars)

/-- `Writer.write_shell` (lines 133-138): a Silent value is prefixed with
`@`, then the value's elements are written space-delimited under the given
context with the default quote function. -/
def writeShell (w : Bool) (v : ShellVal) (sy : Syn) : Except String Chars :=
  (writeEach w (iterateVal v.val) sy (SStr.lit [' ']) none none (some quoteInfo)).map
    (fun body => (if v.silent then ['@'] else []) ++ body)

/-- The optional `target: ` prefix of `Makefile._write_variable`
(lines 349-351), rendered under the target context. -/
def targetPart (w : Bool) : Option SStr → Except String Chars
  | some t =>
    (Writer.write w t Syn.target (some quoteInfo)).map (fun r => r.1 ++ ": ".toList)
  | none => pure ([] : Chars)

/-- `Makefile._write_variable` (lines 347-354): optional `target: ` prefix
rendered under the target context, then `NAME := value` under the given
context, then a newline. -/
def wvariable (w : Bool) (name : MakeVar) (value : ShellVal) (sy : Syn)
    (target : Option SStr) : Except String Chars := do
  let tpart ← targetPart w target
  let vpart ← writeShell w value sy
  pure (tpart ++ name.name ++ " := ".toList ++ vpart ++ ['\n'])

/-- `Makefile._write_define` (lines 356-361). -/
def wdefineText (w : Bool) (name : MakeVar) (value : List ShellVal) :
    Except String Chars := do
  let body ← value.foldlM (fun acc line =>
    (writeShell w line Syn.shell).map (fun s => acc ++ s ++ ['\n'])) ([] : Chars)
  pure ("define ".toList ++ name.name ++ '\n' :: (body ++ "endef\n\n".toList))

/-- The target-scoped variable lines of `Makefile._write_rule`
(lines 364-367): for every target, every rule variable. -/
def ruleVarLines (w : Bool) (r : MRule) : Except String Chars :=
  if r.vars.isEmpty then pure ([] : Chars)
  else r.targets.foldlM (fun acc t =>
    r.vars.foldlM (fun acc2 nv =>
      (wvariable w nv.1 nv.2 Syn.shell (some t)).map (fun line => acc2 ++ line)) acc)
    ([] : Chars)

/-- The `.PHONY` line of `Makefile._write_rule` (lines 369-372). -/
def rulePhonyLine (w : Bool) (r : MRule) : Except String Chars :=
  if r.phony then
    (writeEach w r.targets Syn.dependency (SStr.lit [' ']) none none (some quoteInfo)).map
      (fun ts => ".PHONY: ".toList ++ ts ++ ['\n'])
  else pure ([] : Chars)

/-- The recipe clause of `Makefile._write_rule` (lines 381-387): an Entity
recipe is written inline after ` ; `, a command list one tab-indented line
per command. -/
def ruleRecipeText (w : Bool) : MRecipe → Except String Chars
  | .noRecipe => pure ([] : Chars)
  | .inline v =>
    (writeShell w ⟨false, MValue.one v⟩ Syn.shell).map (fun s => " ; ".toList ++ s)
  | .cmds cs =>
    cs.foldlM (fun acc c =>
      (writeShell w c Syn.shell).map (fun s => acc ++ '\n' :: '\t' :: s)) ([] : Chars)

/-- `Makefile._write_rule` (lines 363-388): target-scoped variable lines,
the optional `.PHONY` line, the `targets: deps | order-only` line with an
inline or tab-indented recipe, and a blank line. -/
def wruleText (w : Bool) (r : MRule) : Except String Chars := do
  let varlines ← ruleVarLines w r
  let phonyPart ← rulePhonyLine w r
  let tgt ← writeEach w r.targets Syn.target (SStr.lit [' ']) none none (some quoteInfo)
  let dep ← writeEach w r.deps Syn.dependency (SStr.lit [' ']) (some (SStr.lit [' ']))
    none (some quoteInfo)
  let oo ← writeEach w r.order_only Syn.dependency (SStr.lit [' '])
    (some (SStr.lit " | ".toList)) none (some quoteInfo)
  let rcp ← ruleRecipeText w r.recipe
  pure (varlines ++ phonyPart ++ tgt ++ ':' :: (dep ++ oo ++ rcp ++ "\n\n".toList))

/-- The `_comment_tmpl` banner (lines 26-30) formatted with the
originating bfg file. -/
def commentTmpl (bfgfile : Chars) : Chars :=
  ("# Do not edit this file! It was automatically generated by bfg9000.\n" ++
   "# Instead, you should edit the source file that created this:\n# ").toList ++ bfgfile

/-- Iteration order of the `Section` enum (`for section in Section`). -/
def sectionOrder : List MSection := [.path, .command, .flags, .other]

/-- One global-variable section's lines (the inner loop of lines
406-407). -/
def sectionLines (w : Bool) (sy : Syn) (gvars : List (MakeVar × ShellVal)) :
    Except String Chars :=
  gvars.foldlM (fun acc nv =>
    (wvariable w nv.1 nv.2 sy none).map (fun line => acc ++ line)) ([] : Chars)

/-- One `include` directive's emission (lines 423-426). -/
def wincludeText (w : Bool) (i : MInclude) : Except String Chars :=
  (Writer.write w i.name Syn.target (some quoteInfo)).map (fun r =>
    (if i.optional then "-include ".toList else "include ".toList) ++ r.1 ++ ['\n'])

/-- `Makefile.write` (lines 390-426), translated clause by clause in the
source's emission order: banner, builtin-disabling directive, comma helper
variable plus blank line, the four sections in enum order (the path
section rendered clean, every non-empty section followed by a blank line),
target variables against the `Pattern('%')` target plus a blank line when
non-empty, defines, rules, includes. -/
def Makefile.write (w : Bool) (st : Makefile) : Except String Chars := do
  let p1 := commentTmpl st.bfgfile ++ "\n\n".toList
  let p2 := (if st.gnu then "MAKEFLAGS += --no-builtin-variables\n"
             else ".SUFFIXES:\n").toList
  let p3 ← wvariable w (mkVariable [','] false) ⟨false, MValue.one (SStr.txt [','])⟩
    Syn.shell none
  let p4 ← sectionOrder.foldlM (fun acc s => do
    let sy := if s == MSection.path then Syn.clean else Syn.shell
    let lines ← sectionLines w sy (st.globalsOf s)
    pure (acc ++ lines ++ (if (st.globalsOf s).isEmpty then [] else ['\n'])))
    ([] : Chars)
  let tv ← st.target_variables.foldlM (fun acc nv =>
    (wvariable w nv.1 nv.2 Syn.shell (some (Pat.use ⟨['%']⟩))).map
      (fun line => acc ++ line)) ([] : Chars)
  let dfs ← st.defines.foldlM (fun acc nv =>
    (wdefineText w nv.1 nv.2).map (fun b => acc ++ b)) ([] : Chars)
  let rls ← st.rules.foldlM (fun acc r =>
    (wruleText w r).map (fun b => acc ++ b)) ([] : Chars)
  let incs ← st.includes.foldlM (fun acc i =>
    (wincludeText w i).map (fun b => acc ++ b)) ([] : Chars)
  pure (p1 ++ p2 ++ p3 ++ '\n' ::
    (p4 ++ tv ++ (if st.target_variables.isEmpty then [] else ['\n']) ++
      dfs ++ rls ++ incs))

/-- Spec-side: the header comment banner naming the originating bfg file,
followed by a blank line. -/
def specHeaderBlock (st : Makefile) : Chars :=
  commentTmpl st.bfgfile ++ "\n\n".toList

/-- Spec-side: the directive disabling built-in rules — `.SUFFIXES:` or,
for GNU, `MAKEFLAGS += --no-builtin-variables`. -/
def specDirectiveBlock (st : Makefile) : Chars :=
  (if st.gnu then "MAKEFLAGS += --no-builtin-variables\n" else ".SUFFIXES:\n").toList

/-- Spec-side: the comma-escape helper variable definition plus its blank
line, as concrete text. -/
def specCommaBlock : Chars := ", := ,\n\n".toList

/-- Spec-side: one global-variable section — its lines under the given
context, followed by a blank line exactly when the section is
non-empty. -/
def specSectionBlock (w : Bool) (sy : Syn) (gvars : List (MakeVar × ShellVal)) :
    Except String Chars :=
  (sectionLines w sy gvars).map
    (fun lines => lines ++ if gvars.isEmpty then [] else ['\n'])

/-- Spec-side: one target-scoped variable line; the pattern target prefix
is the concrete text `%: `. -/
def specTargetVarLine (w : Bool) (nv : MakeVar × ShellVal) : Except String Chars :=
  (writeShell w nv.2 Syn.shell).map (fun body =>
    "%: ".toList ++ nv.1.name ++ " := ".toList ++ body ++ ['\n'])

/-- Spec-side: the target-scoped variable block, followed by a blank line
exactly when non-empty. -/
def specTargetVarBlock (w : Bool) (st : Makefile) : Except String Chars :=
  (st.target_variables.foldlM (fun acc nv =>
    (specTargetVarLine w nv).map (fun line => acc ++ line)) ([] : Chars)).map
    (fun lines => lines ++ if st.target_variables.isEmpty then [] else ['\n'])

/-- Spec-side: the multi-line define blocks in declaration order. -/
def specDefinesBlock (w : Bool) (st : Makefile) : Except String Chars :=
  st.defines.foldlM (fun acc nv =>
    (wdefineText w nv.1 nv.2).map (fun b => acc ++ b)) ([] : Chars)

/-- Spec-side: the rules in declaration order. -/
def specRulesBlock (w : Bool) (st : Makefile) : Except String Chars :=
  st.rules.foldlM (fun acc r =>
    (wruleText w r).map (fun b => acc ++ b)) ([] : Chars)

/-- Spec-side: the include directives, last. -/
def specIncludesBlock (w : Bool) (st : Makefile) : Except String Chars :=
  st.includes.foldlM (fun acc i =>
    (wincludeText w i).map (fun b => acc ++ b)) ([] : Chars)

/-- The spec's fixed emission order for the build file: header banner;
builtin-disabling directive; comma-escape helper; the four variable
sections in Section enumeration order — path under the clean/Unescaped
context, the others under Shell, each followed by a blank line only if
non-empty; target-scoped variables with a blank line if non-empty;
defines; rules in declaration order; includes last. -/
def specWrite (w : Bool) (st : Makefile) : Except String Chars := do
  let pPath ← specSectionBlock w Syn.clean st.gpath
  let pCmd ← specSectionBlock w Syn.shell st.gcommand
  let pFlags ← specSectionBlock w Syn.shell st.gflags
  let pOther ← specSectionBlock w Syn.shell st.gother
  let tv ← specTargetVarBlock w st
  let dfs ← specDefinesBlock w st
  let rls ← specRulesBlock w st
  let incs ← specIncludesBlock w st
  pure (specHeaderBlock st ++ specDirectiveBlock st ++ specCommaBlock ++
    pPath ++ pCmd ++ pFlags ++ pOther ++ tv ++ dfs ++ rls ++ incs)

/-- The rendered target strings of a target list, in order: the claims'
notion of "rendered target string" for rule targets. -/
def renderTargets (w : Bool) : List SStr → Except String (List Chars)
  | [] => .ok []
  | t :: ts => do
    let n ← Makefile.target_str w t
    let ns ← renderTargets w ts
    pure (n :: ns)

/-- A fresh Makefile used by concrete witnesses. -/
def mf0 : Makefile := Makefile.init "b".toList false

/-- The language argument of `Environment.linker`: a plain string or a
collection of languages (environment.py lines 104-109 treat anything that
is not a string as a set; membership is what the lookup uses). -/
inductive LangSpec where
  | single (lang : Chars)
  | multi (langs : List Chars)

/-- `Environment.linker` (environment.py lines 104-113): a string language
is looked up directly under the mode; otherwise the C++ linker for the
mode is returned whenever 'c++' is in the set and the C linker otherwise.
A missing table entry models Python's KeyError as `none`. -/
def Environment.linker {L : Type} (tbl : Chars → Chars → Option L) :
    LangSpec → Chars → Option L
  | .single lang, mode => tbl mode lang
  | .multi langs, mode =>
    if "c++".toList ∈ langs then tbl mode ("c++".toList) else tbl mode ("c".toList)

/-- A concrete two-language linker table for the C7 witness. -/
def linkerTblW : Chars → Chars → Option Nat := fun mode lang =>
  if mode = "executable".toList then
    (if lang = "c++".toList then some 1 else if lang = "c".toList then some 2 else none)
  else none

/-- `LinkLibrary` (file_types.py lines 242-247): constructed from a path
and the library it links against, copying the library's format and
language. -/
structure LinkLibraryT where
  path : Chars
  format : Chars
  lang : Chars

/-- `ExportFile` (file_types.py lines 283-284). -/
structure ExportFileT where
  path : Chars

/-- `DllBinary` (file_types.py lines 291-300): the DLL binary plus
its import library and export file. -/
structure DllBinary where
  path : Chars
  format : Chars
  lang : Chars
  import_name : Chars
  export_name : Chars

/-- `DllBinary.import_lib = LinkLibrary(import_name, self)`
(file_types.py line 299 with lines 243-247): the import library carries
the DLL's object format and language. -/
def DllBinary.import_lib (d : DllBinary) : LinkLibraryT :=
  ⟨d.import_name, d.format, d.lang⟩

/-- `DllBinary.export_file = ExportFile(export_name)` (line 300). -/
def DllBinary.export_file (d : DllBinary) : ExportFileT := ⟨d.export_name⟩

/-- The artifacts `MsvcSharedLibraryLinker.output_file` returns. -/
inductive MsvcArtifact where
  | dllOut (d : DllBinary)
  | impOut (l : LinkLibraryT)
  | expOut (e : ExportFileT)

/-- `MsvcSharedLibraryLinker.output_file` (msvc.py lines 420-426):
`name + shared_library_ext` for the DLL, `name + '.lib'` for the import
library, `name + '.exp'` for the export file, returning
`[dll, dll.import_lib, dll.export_file]`. -/
def msvc_shared_library_output (shared_library_ext object_format lang name : Chars) :
    List MsvcArtifact :=
  let dll : DllBinary := ⟨name ++ shared_library_ext, object_format, lang,
    name ++ ".lib".toList, name ++ ".exp".toList⟩
  [.dllOut dll, .impOut dll.import_lib, .expOut dll.export_file]

/-- `MsvcLinker.__allowed_langs` (msvc.py lines 271-274). -/
def msvc_allowed_langs (lang : Chars) : Option (List Chars) :=
  if lang = "c".toList then some ["c".toList]
  else if lang = "c++".toList then some ["c".toList, "c++".toList]
  else none

/-- `MsvcLinker.can_link` (msvc.py lines 302-304): the format must equal
the builder's object format and the language set must be within the
allowed languages of the linker's language; a linker language outside the
table models Python's KeyError as `none`. -/
def msvc_can_link (self_lang builder_format format : Chars) (langs : List Chars) :
    Option Bool :=
  (msvc_allowed_langs self_lang).map
    (fun allowed => format == builder_format && langs.all (fun l => allowed.contains l))

theorem leadBS_replicate_cons (j : Nat) (c : Char) (cs : Chars) (hc : c ≠ '\\') :
    leadBS (List.replicate j '\\' ++ c :: cs) = j := by
  induction j with
  | zero => simp [leadBS, hc]
  | succ j ih => simp [List.replicate_succ, leadBS, ih]

theorem leadBS_decomp (l : Chars) :
    List.replicate (leadBS l) '\\' ++ l.drop (leadBS l) = l := by
  induction l with
  | nil => simp [leadBS]
  | cons c cs ih =>
    by_cases hc : c = '\\'
    · subst hc
      simpa [leadBS, List.replicate_succ] using ih
    · simp [leadBS, hc]

theorem leadBS_drop_head_ne (l : Chars) (c : Char) (cs : Chars)
    (h : l.drop (leadBS l) = c :: cs) : c ≠ '\\' := by
  induction l with
  | nil => simp [leadBS] at h
  | cons a as ih =>
    by_cases ha : a = '\\'
    · subst ha
      simp only [leadBS, beq_self_eq_true, if_true, List.drop_succ_cons] at h
      exact ih h
    · simp only [leadBS, ha, beq_iff_eq, if_false, List.drop_zero] at h
      cases h
      exact ha

theorem scanAux_shift (esc : Char → Bool) (j p : Nat) (m : Chars) :
    scanAux esc p (List.replicate j '\\' ++ m) = scanAux esc (p + j) m := by
  induction j generalizing p with
  | zero => simp
  | succ j ih =>
    simp only [List.replicate_succ, List.cons_append, scanAux, beq_self_eq_true, if_true,
      List.append_eq]
    rw [ih]
    congr 1
    omega

theorem scanAux_replicate (esc : Char → Bool) (p j : Nat) :
    scanAux esc p (List.replicate j '\\') = List.replicate (p + j) '\\' := by
  induction j generalizing p with
  | zero => simp [scanAux]
  | succ j ih =>
    simp only [List.replicate_succ, scanAux, beq_self_eq_true, if_true]
    rw [ih]
    congr 1
    omega

theorem subScanF_skip (esc : Char → Bool) (c : Char) (cs : Chars)
    (hc : c ≠ '\\') (he : esc c = false) :
    ∀ j n, subScanF esc (n + (j + 1)) false (List.replicate j '\\' ++ c :: cs) =
      List.replicate j '\\' ++ c :: subScanF esc n false cs := by
  intro j
  induction j with
  | zero =>
    intro n
    simp [subScanF, leadBS, hc, he]
  | succ j ih =>
    intro n
    have h1 : leadBS (List.replicate (j + 1) '\\' ++ c :: cs) = j + 1 :=
      leadBS_replicate_cons _ _ _ hc
    have h2 : (List.replicate (j + 1) '\\' ++ c :: cs).drop (j + 1) = c :: cs := by
      have h := List.drop_left (List.replicate (j + 1) '\\') (c :: cs)
      rwa [List.length_replicate] at h
    have hfuel : n + (j + 1 + 1) = (n + (j + 1)) + 1 := by omega
    rw [hfuel]
    simp only [subScanF, h1, h2, he, Bool.false_and, if_false, Bool.false_eq_true]
    rw [List.replicate_succ, List.cons_append]
    exact congrArg _ (ih n)

theorem subScanF_eq_scanAux (esc : Char → Bool) :
    ∀ N l n, l.length ≤ N → l.length < n →
      subScanF esc n false l = scanAux esc 0 l := by
  intro N
  induction N with
  | zero =>
    intro l n h1 h2
    have hl : l = [] := List.length_eq_zero.mp (Nat.le_zero.mp h1)
    subst hl
    obtain ⟨m, rfl⟩ : ∃ m, n = m + 1 := ⟨n - 1, by omega⟩
    simp [subScanF, scanAux, leadBS]
  | succ N ih =>
    intro l n h1 h2
    obtain ⟨m, rfl⟩ : ∃ m, n = m + 1 := ⟨n - 1, by omega⟩
    cases hd : l.drop (leadBS l) with
    | nil =>
      have hl := leadBS_decomp l
      rw [hd, List.append_nil] at hl
      simp only [subScanF, hd]
      rw [← hl, scanAux_replicate]
      simp
    | cons c cs =>
      have hcb : c ≠ '\\' := leadBS_drop_head_ne l c cs hd
      have hdec := leadBS_decomp l
      rw [hd] at hdec
      have hlen : l.length = leadBS l + 1 + cs.length := by
        conv_lhs => rw [← hdec]
        simp [List.length_append, List.length_replicate]
        omega
      cases he : esc c with
      | true =>
        simp only [subScanF, hd, he, if_true]
        rw [ih cs m (by omega) (by omega)]
        conv_rhs => rw [← hdec, scanAux_shift]
        simp [scanAux, hcb, he]
      | false =>
        have hfuel : m + 1 = (m + 1 - (leadBS l + 1)) + (leadBS l + 1) := by omega
        conv_lhs => rw [← hdec, hfuel]
        rw [subScanF_skip esc c cs hcb he]
        rw [ih cs _ (by omega) (by omega)]
        conv_rhs => rw [← hdec, scanAux_shift]
        simp [scanAux, hcb, he]

theorem subScanF_true_of_head (esc : Char → Bool) (n : Nat) (l : Chars)
    (h : l.head? ≠ some '~') :
    subScanF esc n true l = subScanF esc n false l := by
  cases n with
  | zero => rfl
  | succ m =>
    cases hd : l.drop (leadBS l) with
    | nil => simp [subScanF, hd]
    | cons c cs =>
      cases he : esc c with
      | true => simp [subScanF, hd, he]
      | false =>
        by_cases hk : leadBS l = 0
        · have hl : l = c :: cs := by
            rw [← List.drop_zero l, ← hk, hd]
          have hc : c ≠ '~' := by
            intro hct
            apply h
            rw [hl, hct]
            rfl
          simp only [subScanF, hd, he, hk, hc]
          rw [hl]
          simp [he, hc]
        · simp [subScanF, hd, he, hk]

theorem subScanF_start_tilde (esc : Char → Bool) (n : Nat) (cs : Chars) :
    subScanF esc (n + 1) true ('~' :: cs) = '\\' :: '~' :: subScanF esc n false cs := by
  rw [subScanF]
  have h0 : leadBS ('~' :: cs) = 0 := by simp [leadBS]
  rw [h0]
  simp only [List.drop_zero]
  cases he : esc '~' with
  | true => simp [he, h0]
  | false => simp [he, h0]

theorem subScan_true_eq_specTD (esc : Char → Bool)
    (l : Chars) : subScan esc true l = specTD esc l := by
  cases l with
  | nil => rfl
  | cons c cs =>
    by_cases hc : c = '~'
    · subst hc
      rw [subScan, List.length_cons, subScanF_start_tilde,
        subScanF_eq_scanAux esc cs.length cs (cs.length + 1) le_rfl (by omega)]
      simp [specTD]
    · rw [subScan, subScanF_true_of_head esc _ _ (by cases cs <;> simp [hc])]
      rw [subScanF_eq_scanAux esc (c :: cs).length _ _ le_rfl (by omega)]
      simp [specTD, hc]

/-- C1: for every newline-free string and every syntax context,
`Writer.escape_str` implements exactly the spec's per-context escaping
table: every `$` is doubled first; under Target the characters
`? * [ ]`, whitespace, `#`, `%` and (non-Windows hosts only) `:` are
backslash-escaped, under Dependency additionally `|`, a leading `~` is
escaped in both, and any backslash run immediately preceding an escaped
character is doubled; under FunctionArgument each comma becomes the
comma-escape reference `$,`; Shell and Unescaped add nothing beyond the
`$` doubling. -/
theorem c1_escape_str_table (w : Bool) (sy : Syn) (s : Chars) (h : '\n' ∉ s) :
    Writer.escape_str w s sy = Except.ok (specEscape w sy s) := by
  unfold Writer.escape_str specEscape
  rw [if_neg h]
  cases sy
  · exact congrArg Except.ok (subScan_true_eq_specTD _ _)
  · exact congrArg Except.ok (subScan_true_eq_specTD _ _)
  · rfl
  · rfl
  · rfl

/-- C1 witness: the theorem applied at the concrete string "a b:%". -/
theorem c1_escape_str_table_witness :
    '\n' ∉ ("a b:%".toList) ∧
      Writer.escape_str false ("a b:%".toList) Syn.target =
        Except.ok (specEscape false Syn.target ("a b:%".toList)) :=
  ⟨by decide, c1_escape_str_table false Syn.target ("a b:%".toList) (by decide)⟩

theorem leadBS_replicate (j : Nat) : leadBS (List.replicate j '\\') = j := by
  induction j with
  | zero => rfl
  | succ j ih => simp [List.replicate_succ, leadBS, ih]

theorem parityAux_rep (j : Nat) (e : Bool) (m : Chars) :
    parityAux e (List.replicate j '\\' ++ m) = parityAux (e == decide (j % 2 = 0)) m := by
  induction j generalizing e with
  | zero => simp
  | succ j ih =>
    simp only [List.replicate_succ, List.cons_append, parityAux, beq_self_eq_true, if_true,
      List.append_eq]
    rw [ih]
    congr 1
    rcases Nat.mod_two_eq_zero_or_one j with h | h
    · have h2 : (j + 1) % 2 = 1 := by omega
      cases e <;> simp [h, h2]
    · have h2 : (j + 1) % 2 = 0 := by omega
      cases e <;> simp [h, h2]

theorem reFindCountF_rep_nil :
    ∀ n (b : Bool) (j : Nat), reFindCountF n b (List.replicate j '\\') = 0 := by
  intro n
  induction n with
  | zero => intro b j; rfl
  | succ n ih =>
    intro b j
    cases j with
    | zero => simp [reFindCountF]
    | succ j =>
      have h1 : leadBS (List.replicate (j + 1) '\\') = j + 1 := leadBS_replicate _
      have h2 : (List.replicate (j + 1) '\\').drop (j + 1) = [] := by
        have h := List.drop_length (List.replicate (j + 1) '\\')
        rwa [List.length_replicate] at h
      simp only [reFindCountF, h1, h2, List.head?_nil]
      simp only [show ((none : Option Char) == some '%') = false from rfl, Bool.and_false,
        Bool.false_and, Bool.false_eq_true, if_false]
      rw [List.replicate_succ]
      simpa using ih false j

theorem reFindCountF_skip (c : Char) (cs : Chars) (hc : c ≠ '\\') :
    ∀ j n, reFindCountF (n + (j + 1)) false (List.replicate j '\\' ++ c :: cs) =
      reFindCountF n true cs := by
  intro j
  induction j with
  | zero =>
    intro n
    have hb : (c == '\\') = false := by simp [hc]
    simp [reFindCountF, hb]
  | succ j ih =>
    intro n
    have hfuel : n + (j + 1 + 1) = (n + (j + 1)) + 1 := by omega
    rw [hfuel, List.replicate_succ, List.cons_append]
    simp only [reFindCountF, Bool.false_and, Bool.false_eq_true, if_false]
    simpa using ih n

theorem reFindCountF_eq_parityAux :
    ∀ N l n, l.length ≤ N → l.length < n → reFindCountF n true l = parityAux true l := by
  intro N
  induction N with
  | zero =>
    intro l n h1 h2
    have hl : l = [] := List.length_eq_zero.mp (Nat.le_zero.mp h1)
    subst hl
    obtain ⟨m, rfl⟩ : ∃ m, n = m + 1 := ⟨n - 1, by omega⟩
    rfl
  | succ N ih =>
    intro l n h1 h2
    obtain ⟨m, rfl⟩ : ∃ m, n = m + 1 := ⟨n - 1, by omega⟩
    cases hd : l.drop (leadBS l) with
    | nil =>
      have hl := leadBS_decomp l
      rw [hd, List.append_nil] at hl
      rw [← hl, reFindCountF_rep_nil]
      have h3 := parityAux_rep (leadBS l) true ([] : Chars)
      rw [List.append_nil] at h3
      rw [h3]
      rfl
    | cons c cs =>
      have hcb : c ≠ '\\' := leadBS_drop_head_ne l c cs hd
      have hcbb : (c == '\\') = false := by simp [hcb]
      have hdec := leadBS_decomp l
      rw [hd] at hdec
      have hlen : l.length = leadBS l + 1 + cs.length := by
        conv_lhs => rw [← hdec]
        simp [List.length_append, List.length_replicate]
        omega
      by_cases hp : c = '%'
      · rcases Nat.mod_two_eq_zero_or_one (leadBS l) with hk | hk
        · -- even run before a %: the engine matches and consumes through the %
          have hcond : (true && ((l.drop (leadBS l)).head? == some '%')
              && (leadBS l % 2 == 0)) = true := by
            rw [hd, hp, hk]
            rfl
          simp only [reFindCountF, hcond, if_true]
          have hdrop1 : l.drop (leadBS l + 1) = cs := by
            have h := List.drop_drop 1 (leadBS l) l
            rw [hd] at h
            simpa [Nat.add_comm] using h.symm
          rw [hdrop1, ih cs m (by omega) (by omega)]
          conv_rhs => rw [← hdec, parityAux_rep]
          simp [parityAux, hp, hk, hcbb]
        · -- odd run before a %: no match, the engine walks over the run
          have hkpos : leadBS l ≠ 0 := by
            intro h0
            rw [h0] at hk
            simp at hk
          obtain ⟨k, hkk⟩ : ∃ k, leadBS l = k + 1 := ⟨leadBS l - 1, by omega⟩
          have hlform : l = '\\' :: (List.replicate k '\\' ++ c :: cs) := by
            rw [← hdec, hkk, List.replicate_succ, List.cons_append]
          have hcond : (true && ((l.drop (leadBS l)).head? == some '%')
              && (leadBS l % 2 == 0)) = false := by
            rw [hk]
            simp
          rw [hlform] at hcond ⊢
          simp only [reFindCountF, hcond, Bool.false_eq_true, if_false, beq_self_eq_true,
            Bool.not_true]
          have hm : m = (m - (k + 1)) + (k + 1) := by omega
          rw [hm, reFindCountF_skip c cs hcb k, ih cs _ (by omega) (by omega)]
          have hrep : ('\\' :: (List.replicate k '\\' ++ c :: cs))
              = List.replicate (k + 1) '\\' ++ c :: cs := by
            rw [List.replicate_succ, List.cons_append]
          rw [hrep, parityAux_rep]
          have hdk : decide ((k + 1) % 2 = 0) = false := by
            rw [← hkk]
            simp [hk]
          rw [hdk]
          simp [parityAux, hp, hcbb]
      · -- the character after the run is not %: no match, walk over run and character
        have hcond : (true && ((l.drop (leadBS l)).head? == some '%')
            && (leadBS l % 2 == 0)) = false := by
          rw [hd]
          simp [hp]
        rcases Nat.eq_zero_or_pos (leadBS l) with hk0 | hkpos
        · have hlform : l = c :: cs := by
            rw [← hdec, hk0]
            rfl
          rw [hlform] at hcond ⊢
          simp only [reFindCountF, hcond, Bool.false_eq_true, if_false, hcbb, Bool.not_false]
          rw [ih cs m (by omega) (by omega)]
          simp [parityAux, hcbb, hp]
        · obtain ⟨k, hkk⟩ : ∃ k, leadBS l = k + 1 := ⟨leadBS l - 1, by omega⟩
          have hlform : l = '\\' :: (List.replicate k '\\' ++ c :: cs) := by
            rw [← hdec, hkk, List.replicate_succ, List.cons_append]
          rw [hlform] at hcond ⊢
          simp only [reFindCountF, hcond, Bool.false_eq_true, if_false, beq_self_eq_true,
            Bool.not_true]
          have hm : m = (m - (k + 1)) + (k + 1) := by omega
          rw [hm, reFindCountF_skip c cs hcb k, ih cs _ (by omega) (by omega)]
          have hrep : ('\\' :: (List.replicate k '\\' ++ c :: cs))
              = List.replicate (k + 1) '\\' ++ c :: cs := by
            rw [List.replicate_succ, List.cons_append]
          rw [hrep, parityAux_rep]
          rcases Nat.mod_two_eq_zero_or_one (k + 1) with hkp | hkp
          · have hdk : decide ((k + 1) % 2 = 0) = true := by simp [hkp]
            rw [hdk]
            simp [parityAux, hp, hcbb]
          · have hdk : decide ((k + 1) % 2 = 0) = false := by simp [hkp]
            rw [hdk]
            simp [parityAux, hp, hcbb]

theorem reFindCount_eq_parityCount (l : Chars) : reFindCount l = parityCount l :=
  reFindCountF_eq_parityAux l.length l (l.length + 1) le_rfl (by omega)

theorem splitPct_ne_nil (s : Chars) : splitPct s ≠ [] := by
  cases s with
  | nil => simp [splitPct]
  | cons c cs =>
    simp only [splitPct]
    by_cases h : c == '%'
    · simp [h]
    · simp only [h, Bool.false_eq_true, if_false]
      cases hs : splitPct cs <;> simp

theorem joinWithPct_cons (b : Chars) (r : List Chars) (hr : r ≠ []) :
    joinWithPct (b :: r) = b ++ '%' :: joinWithPct r := by
  cases r with
  | nil => exact absurd rfl hr
  | cons q qs => rfl

theorem splitPct_join (s : Chars) : joinWithPct (splitPct s) = s := by
  induction s with
  | nil => rfl
  | cons c cs ih =>
    by_cases h : c = '%'
    · subst h
      simp only [splitPct, beq_self_eq_true, if_true]
      rw [joinWithPct_cons _ _ (splitPct_ne_nil cs)]
      simp [ih]
    · have hb : (c == '%') = false := by simp [h]
      simp only [splitPct, hb, Bool.false_eq_true, if_false]
      cases hs : splitPct cs with
      | nil => exact absurd hs (splitPct_ne_nil cs)
      | cons p ps =>
        rw [hs] at ih
        cases ps with
        | nil =>
          simp only [joinWithPct] at ih ⊢
          simp [ih]
        | cons q qs =>
          rw [joinWithPct_cons _ _ (by simp)]
          rw [joinWithPct_cons _ _ (by simp)] at ih
          simp only [List.cons_append]
          rw [ih]

theorem splitPct_no_pct (s : Chars) : ∀ p ∈ splitPct s, '%' ∉ p := by
  induction s with
  | nil =>
    intro p hp
    simp only [splitPct, List.mem_singleton] at hp
    subst hp
    simp
  | cons c cs ih =>
    intro p hp
    by_cases h : c = '%'
    · subst h
      simp only [splitPct, beq_self_eq_true, if_true, List.mem_cons] at hp
      rcases hp with rfl | hp
      · simp
      · exact ih p hp
    · have hb : (c == '%') = false := by simp [h]
      simp only [splitPct, hb, Bool.false_eq_true, if_false] at hp
      cases hs : splitPct cs with
      | nil => exact absurd hs (splitPct_ne_nil cs)
      | cons q qs =>
        rw [hs] at hp
        simp only [List.mem_cons] at hp
        rcases hp with rfl | hp
        · intro hmem
          simp only [List.mem_cons] at hmem
          rcases hmem with hc | hq
          · exact h hc.symm
          · exact ih q (by rw [hs]; exact List.mem_cons_self _ _) hq
        · exact ih p (by rw [hs]; exact List.mem_cons_of_mem _ hp)

theorem joinBits_mem (pieces : List Chars) :
    ∀ b ∈ joinBits pieces, b = SStr.lit ['%'] ∨ ∃ p ∈ pieces, b = SStr.txt p := by
  induction pieces with
  | nil =>
    intro b hb
    simp [joinBits] at hb
  | cons p ps ih =>
    intro b hb
    cases ps with
    | nil =>
      simp only [joinBits, List.mem_singleton] at hb
      subst hb
      right
      exact ⟨p, by simp, rfl⟩
    | cons q qs =>
      simp only [joinBits, List.mem_cons] at hb
      rcases hb with rfl | rfl | hb
      · right
        exact ⟨p, by simp, rfl⟩
      · left
        rfl
      · rcases ih b hb with h | ⟨r, hr, h⟩
        · left
          exact h
        · right
          exact ⟨r, by simp [hr], h⟩

theorem textList_joinBits (pieces : List Chars) :
    SStr.textList (joinBits pieces) = joinWithPct pieces := by
  induction pieces with
  | nil => rfl
  | cons p ps ih =>
    cases ps with
    | nil => simp [joinBits, SStr.textList, SStr.text, joinWithPct]
    | cons q qs =>
      rw [joinWithPct_cons _ _ (by simp)]
      simp only [joinBits] at ih ⊢
      simp [SStr.textList, SStr.text, ih]

/-- C3: constructing a `Pattern` from a template with zero or with two or
more unescaped `%` wildcard markers fails with a value error; with exactly
one unescaped marker construction succeeds and rendering via `use`
reproduces the original template: its raw text equals the template, every
emitted literal bit is the never-escaped `%`, and the remaining bits are
the plain `%`-free pieces of the template with no escaping applied. -/
theorem c3_pattern_wildcard (tmpl : Chars) :
    (parityCount tmpl ≠ 1 → mkPattern tmpl = Except.error "exactly one % required") ∧
    (parityCount tmpl = 1 →
      mkPattern tmpl = Except.ok ⟨tmpl⟩ ∧
      Pat.use ⟨tmpl⟩ = SStr.jbos (joinBits (splitPct tmpl)) ∧
      SStr.text (Pat.use ⟨tmpl⟩) = tmpl ∧
      ∀ b ∈ joinBits (splitPct tmpl),
        b = SStr.lit ['%'] ∨ ∃ p, b = SStr.txt p ∧ '%' ∉ p) := by
  have heq : reFindCount tmpl = parityCount tmpl := reFindCount_eq_parityCount tmpl
  constructor
  · intro h
    rw [mkPattern, if_pos (by rw [heq]; exact h)]
  · intro h
    refine ⟨?_, rfl, ?_, ?_⟩
    · rw [mkPattern, if_neg (by rw [heq, h]; simp)]
    · show SStr.text (SStr.jbos (joinBits (splitPct tmpl))) = tmpl
      rw [SStr.text, textList_joinBits, splitPct_join]
    · intro b hb
      rcases joinBits_mem _ b hb with h1 | ⟨p, hp, h1⟩
      · left
        exact h1
      · right
        exact ⟨p, h1, splitPct_no_pct tmpl p hp⟩

/-- C3 witness: the theorem applied at the concrete template "src/%.c". -/
theorem c3_pattern_wildcard_witness :
    parityCount ("src/%.c".toList) = 1 ∧
      mkPattern ("src/%.c".toList) = Except.ok ⟨"src/%.c".toList⟩ :=
  ⟨by decide, ((c3_pattern_wildcard ("src/%.c".toList)).2 (by decide)).1⟩

theorem except_bind_ok {α β : Type} (a : α) (f : α → Except String β) :
    (Except.ok a >>= f : Except String β) = f a := rfl

theorem except_bind_error {α β : Type} (e : String) (f : α → Except String β) :
    ((Except.error e : Except String α) >>= f) = Except.error e := rfl

theorem except_pure_bind {α β : Type} (a : α) (f : α → Except String β) :
    ((pure a : Except String α) >>= f) = f a := rfl

theorem except_map_ok {α β : Type} (g : α → β) (a : α) :
    Except.map g (Except.ok a : Except String α) = Except.ok (g a) := rfl

theorem except_map_error {α β : Type} (g : α → β) (e : String) :
    Except.map g (Except.error e : Except String α) = Except.error e := rfl

theorem foldlM_congr_except {α : Type} (f g : Chars → α → Except String Chars)
    (h : ∀ acc x, f acc x = g acc x) :
    ∀ (l : List α) (acc : Chars), List.foldlM f acc l = List.foldlM g acc l := by
  intro l
  induction l with
  | nil => intro acc; rfl
  | cons x xs ih =>
    intro acc
    rw [List.foldlM_cons, List.foldlM_cons, h]
    cases hx : g acc x with
    | error e => rfl
    | ok v =>
      show List.foldlM f v xs = List.foldlM g v xs
      exact ih v

theorem comma_line_text (w : Bool) :
    wvariable w (mkVariable [','] false) ⟨false, MValue.one (SStr.txt [','])⟩
      Syn.shell none = Except.ok (", := ,\n".toList) := by
  rfl

theorem wvariable_pattern_target (w : Bool) (nv : MakeVar × ShellVal) :
    wvariable w nv.1 nv.2 Syn.shell (some (Pat.use ⟨['%']⟩)) =
      specTargetVarLine w nv := by
  have ht : targetPart w (some (Pat.use ⟨['%']⟩)) = Except.ok ("%: ".toList) := by rfl
  rw [wvariable, ht]
  show (writeShell w nv.2 Syn.shell).bind _ = _
  rw [specTargetVarLine]
  cases hx : writeShell w nv.2 Syn.shell with
  | error e => rfl
  | ok v => rfl

theorem comma_text_append (X : Chars) :
    ", := ,\n".toList ++ '\n' :: X = ", := ,\n\n".toList ++ X := by
  rfl

/-- C2: `Makefile.write` emits exactly the spec's fixed order: header
banner naming the originating bfg file; the builtin-disabling directive
(`.SUFFIXES:`, or `MAKEFLAGS += --no-builtin-variables` for GNU); the
comma-escape helper variable; the four global-variable sections in
Section enumeration order (path, command, flags, other), each followed by
a blank line only if non-empty, the path section rendered under the
clean/Unescaped context and the others under Shell; target-scoped
variables (blank line if non-empty); define blocks; rules in declaration
order; include directives last. -/
theorem c2_write_order (w : Bool) (st : Makefile) :
    Makefile.write w st = specWrite w st := by
  rw [Makefile.write, specWrite, comma_line_text]
  simp only [sectionOrder, List.foldlM]
  simp only [show (MSection.path == MSection.path) = true from rfl,
    show (MSection.command == MSection.path) = false from rfl,
    show (MSection.flags == MSection.path) = false from rfl,
    show (MSection.other == MSection.path) = false from rfl,
    if_true, Bool.false_eq_true, if_false]
  simp only [Makefile.globalsOf]
  rw [foldlM_congr_except _
    (fun acc nv => Except.map (fun line => acc ++ line) (specTargetVarLine w nv))
    (fun acc nv => by rw [wvariable_pattern_target]) st.target_variables []]
  simp only [specSectionBlock, specTargetVarBlock, specDefinesBlock, specRulesBlock,
    specIncludesBlock, specHeaderBlock, specDirectiveBlock, specCommaBlock]
  cases hA : sectionLines w Syn.clean st.gpath with
  | error e => simp [hA, except_bind_ok, except_bind_error, except_pure_bind,
      except_map_ok, except_map_error]
  | ok vA =>
  simp only [hA, except_bind_ok, except_pure_bind, except_map_ok]
  cases hB : sectionLines w Syn.shell st.gcommand with
  | error e => simp [hB, except_bind_ok, except_bind_error, except_pure_bind,
      except_map_ok, except_map_error]
  | ok vB =>
  simp only [hB, except_bind_ok, except_pure_bind, except_map_ok]
  cases hC : sectionLines w Syn.shell st.gflags with
  | error e => simp [hC, except_bind_ok, except_bind_error, except_pure_bind,
      except_map_ok, except_map_error]
  | ok vC =>
  simp only [hC, except_bind_ok, except_pure_bind, except_map_ok]
  cases hD : sectionLines w Syn.shell st.gother with
  | error e => simp [hD, except_bind_ok, except_bind_error, except_pure_bind,
      except_map_ok, except_map_error]
  | ok vD =>
  simp only [hD, except_bind_ok, except_pure_bind, except_map_ok]
  cases hE : List.foldlM (fun acc nv =>
      Except.map (fun line => acc ++ line) (specTargetVarLine w nv)) ([] : Chars)
      st.target_variables with
  | error e => simp [hE, except_bind_ok, except_bind_error, except_pure_bind,
      except_map_ok, except_map_error]
  | ok vE =>
  simp only [hE, except_bind_ok, except_pure_bind, except_map_ok]
  cases hF : List.foldlM (fun acc nv =>
      Except.map (fun b => acc ++ b) (wdefineText w nv.1 nv.2)) ([] : Chars)
      st.defines with
  | error e => simp [hF, except_bind_ok, except_bind_error, except_pure_bind,
      except_map_ok, except_map_error]
  | ok vF =>
  simp only [hF, except_bind_ok, except_pure_bind, except_map_ok]
  cases hG : List.foldlM (fun acc r =>
      Except.map (fun b => acc ++ b) (wruleText w r)) ([] : Chars) st.rules with
  | error e => simp [hG, except_bind_ok, except_bind_error, except_pure_bind,
      except_map_ok, except_map_error]
  | ok vG =>
  simp only [hG, except_bind_ok, except_pure_bind, except_map_ok]
  cases hH : List.foldlM (fun acc i =>
      Except.map (fun b => acc ++ b) (wincludeText w i)) ([] : Chars) st.includes with
  | error e => simp [hH, except_bind_ok, except_bind_error, except_pure_bind,
      except_map_ok, except_map_error]
  | ok vH =>
  simp only [hH, except_bind_ok, except_pure_bind, except_map_ok]
  refine congrArg pure ?_
  simp only [List.nil_append, List.append_assoc, List.cons_append, comma_text_append]

theorem mem_escapeSq (c : Char) (hc : c ≠ '\'') (s : Chars) (h : c ∈ s) :
    c ∈ escapeSq s := by
  induction s with
  | nil => simp at h
  | cons a as ih =>
    rw [escapeSq, charExpand]
    rcases List.mem_cons.mp h with rfl | h
    · apply List.mem_append_left
      have ha : (c == '\'') = false := by simp [hc]
      simp [ha]
    · exact List.mem_append_right _ (ih h)

theorem quoteInfo_newline (s : Chars) (h : '\n' ∈ s) : '\n' ∈ (quoteInfo s).1 := by
  have hs : s.isEmpty = false := by
    cases s
    · simp at h
    · rfl
  have hany : s.any needsQuote = true :=
    List.any_eq_true.mpr ⟨'\n', h, by decide⟩
  simp only [quoteInfo, hs, Bool.false_eq_true, if_false, hany, if_true]
  show '\n' ∈ wrapQuotes (escapeSq s)
  rw [wrapQuotes]
  exact List.mem_cons_of_mem _ (List.mem_append_left _ (mem_escapeSq _ (by decide) _ h))

/-- C6: a plain (raw) text value or a backend-literal (shell_literal)
value containing a newline raises a value error when rendered through the
Writer under every syntax context; a forced-literal value is exempt
because it bypasses escaping entirely. -/
theorem c6_newline_value_error (w : Bool) (sy : Syn) (s : Chars) (h : '\n' ∈ s) :
    Writer.write w (SStr.txt s) sy (some quoteInfo) = Except.error "illegal newline" ∧
    (∀ qf, Writer.write w (SStr.shl s) sy qf = Except.error "illegal newline") ∧
    (∀ qf, Writer.write w (SStr.lit s) sy qf = Except.ok (s, true)) := by
  refine ⟨?_, ?_, fun qf => rfl⟩
  · show wwriteF w (SStr.depth (SStr.txt s)) (SStr.txt s) sy (some quoteInfo) = _
    rw [show SStr.depth (SStr.txt s) = 0 + 1 from rfl, wwriteF]
    have hq : '\n' ∈ (quoteInfo s).1 := quoteInfo_newline s h
    cases sy <;>
      simp [Writer.escape_str, h, hq, except_map_error]
  · intro qf
    show wwriteF w (SStr.depth (SStr.shl s)) (SStr.shl s) sy qf = _
    rw [show SStr.depth (SStr.shl s) = 0 + 1 from rfl, wwriteF]
    rw [Writer.escape_str, if_pos h]
    rfl

/-- C6 witness: the theorem applied at the concrete string "a\nb" under
the shell context. -/
theorem c6_newline_value_error_witness :
    '\n' ∈ ("a\nb".toList) ∧
      Writer.write false (SStr.txt ("a\nb".toList)) Syn.shell (some quoteInfo) =
        Except.error "illegal newline" :=
  ⟨by decide, (c6_newline_value_error false Syn.shell ("a\nb".toList) (by decide)).1⟩

/-- C5: declaring a variable whose name is already registered raises when
exist_ok is false; with exist_ok the second declaration succeeds, the
whole state — and so the value recorded by the first declaration — is
unchanged (the second value is not recorded), and the returned name is
the `Variable` for the raw name, equal under `Variable` equality to the
originally registered one. -/
theorem c5_variable_redeclare (st : Makefile) (raw : Chars) (v1 : ShellVal)
    (sec : MSection) (h : st.has_variable (mkVariable raw false) = true) :
    Makefile.addVariable st raw v1 sec false = (st, Except.error "variable already exists") ∧
    Makefile.addVariable st raw v1 sec true = (st, Except.ok (mkVariable raw false)) ∧
    ∃ v0 ∈ st.var_table, v0.name = (mkVariable raw false).name := by
  refine ⟨?_, ?_, ?_⟩
  · rw [Makefile.addVariable, Makefile.unique_var]
    simp [h]
  · rw [Makefile.addVariable, Makefile.unique_var]
    simp [h]
  · obtain ⟨v0, hmem, hname⟩ := List.any_eq_true.mp h
    exact ⟨v0, hmem, by simpa using hname⟩

/-- C5 witness: the theorem applied at the concrete state holding the
variable "FOO". -/
theorem c5_variable_redeclare_witness :
    ((Makefile.init "b".toList false).addVariable "FOO".toList
        ⟨false, MValue.one (SStr.txt "1".toList)⟩ MSection.other false).1.has_variable
      (mkVariable "FOO".toList false) = true ∧
    Makefile.addVariable
      ((Makefile.init "b".toList false).addVariable "FOO".toList
        ⟨false, MValue.one (SStr.txt "1".toList)⟩ MSection.other false).1
      "FOO".toList ⟨false, MValue.one (SStr.txt "2".toList)⟩ MSection.other false =
      (((Makefile.init "b".toList false).addVariable "FOO".toList
        ⟨false, MValue.one (SStr.txt "1".toList)⟩ MSection.other false).1,
       Except.error "variable already exists") :=
  ⟨by decide, (c5_variable_redeclare _ "FOO".toList
    ⟨false, MValue.one (SStr.txt "2".toList)⟩ MSection.other (by decide)).1⟩

theorem appendGlobal_var_table (st : Makefile) (s : MSection) (nv : MakeVar × ShellVal) :
    (st.appendGlobal s nv).var_table = st.var_table := by
  cases s <;> rfl

/-- C10: variable names are sanitized at construction — every whitespace,
colon, hash and equals character becomes an underscore — and uniqueness is
computed over the sanitized name: for two distinct raw names with equal
sanitizations, the first declaration succeeds and the second (without
exist_ok) fails as a duplicate, leaving the state as the first left it. -/
theorem c10_sanitized_collision (st : Makefile) (raw1 raw2 : Chars)
    (v1 v2 : ShellVal) (sec1 sec2 : MSection)
    (hs : sanitizeName raw1 = sanitizeName raw2) (hne : raw1 ≠ raw2)
    (hfresh : st.has_variable (mkVariable raw1 false) = false) :
    (mkVariable raw1 false).name = sanitizeName raw1 ∧
    (Makefile.addVariable st raw1 v1 sec1 false).2 = Except.ok (mkVariable raw1 false) ∧
    Makefile.addVariable (Makefile.addVariable st raw1 v1 sec1 false).1 raw2 v2 sec2 false =
      ((Makefile.addVariable st raw1 v1 sec1 false).1,
        Except.error "variable already exists") := by
  have hv1 : Makefile.addVariable st raw1 v1 sec1 false =
      (Makefile.appendGlobal { st with var_table := st.var_table ++ [mkVariable raw1 false] }
        sec1 (mkVariable raw1 false, convert_args v1), Except.ok (mkVariable raw1 false)) := by
    rw [Makefile.addVariable, Makefile.unique_var]
    simp [hfresh]
  refine ⟨rfl, by rw [hv1], ?_⟩
  have htab : (Makefile.addVariable st raw1 v1 sec1 false).1.var_table =
      st.var_table ++ [mkVariable raw1 false] := by
    rw [hv1, appendGlobal_var_table]
  have hhv : (Makefile.addVariable st raw1 v1 sec1 false).1.has_variable
      (mkVariable raw2 false) = true := by
    rw [Makefile.has_variable, htab]
    apply List.any_eq_true.mpr
    refine ⟨mkVariable raw1 false, List.mem_append_right _ (List.mem_singleton_self _), ?_⟩
    show (sanitizeName raw1 == sanitizeName raw2) = true
    simp [hs]
  rw [Makefile.addVariable, Makefile.unique_var]
  simp [hhv]

/-- C10 witness: "a b" and "a=b" are distinct raw names that both sanitize
to "a_b"; the theorem applied on the fresh state. -/
theorem c10_sanitized_collision_witness :
    sanitizeName ("a b".toList) = sanitizeName ("a=b".toList) ∧
    ("a b".toList ≠ "a=b".toList) ∧
    (Makefile.init "b".toList false).has_variable (mkVariable "a b".toList false) = false ∧
    (mkVariable "a b".toList false).name = sanitizeName ("a b".toList) :=
  ⟨by decide, by decide, by decide,
   (c10_sanitized_collision (Makefile.init "b".toList false) "a b".toList "a=b".toList
     ⟨false, MValue.one (SStr.txt "1".toList)⟩ ⟨false, MValue.one (SStr.txt "2".toList)⟩
     MSection.other MSection.other (by decide) (by decide) (by decide)).1⟩

theorem has_rule_iff_mem (st : Makefile) (n : Chars) :
    st.has_rule n = true ↔ n ∈ st.targets := by
  rw [Makefile.has_rule]
  exact List.elem_iff

theorem ruleClaim_ok (w : Bool) :
    ∀ (ts : List SStr) (st : Makefile) (ns : List Chars),
      renderTargets w ts = Except.ok ns → ns.Nodup →
      (∀ n ∈ ns, st.has_rule n = false) →
      Makefile.ruleClaim w st ts =
        ({ st with targets := st.targets ++ ns }, Except.ok ()) := by
  intro ts
  induction ts with
  | nil =>
    intro st ns h _ _
    rw [renderTargets] at h
    cases h
    simp [Makefile.ruleClaim]
  | cons t ts ih =>
    intro st ns h hnd hfr
    rw [renderTargets] at h
    cases hr : Makefile.target_str w t with
    | error e =>
      rw [hr, except_bind_error] at h
      exact absurd h (by simp)
    | ok n =>
      rw [hr, except_bind_ok] at h
      cases hrs : renderTargets w ts with
      | error e =>
        rw [hrs, except_bind_error] at h
        exact absurd h (by simp)
      | ok ns' =>
        rw [hrs, except_bind_ok] at h
        cases h
        have hn : st.has_rule n = false := hfr n (List.mem_cons_self _ _)
        rw [Makefile.ruleClaim, hr]
        simp only [hn, Bool.false_eq_true, if_false]
        rw [ih _ ns' hrs (List.nodup_cons.mp hnd).2 ?_]
        · simp [List.append_assoc]
        · intro m hm
          have hm1 : st.has_rule m = false := hfr m (List.mem_cons_of_mem _ hm)
          have hm2 : m ≠ n := fun he => (List.nodup_cons.mp hnd).1 (he ▸ hm)
          rw [← Bool.not_eq_true]
          rw [has_rule_iff_mem]
          intro hmem
          rcases List.mem_append.mp hmem with h1 | h1
          · rw [← Bool.not_eq_true, has_rule_iff_mem] at hm1
            exact hm1 h1
          · exact hm2 (List.mem_singleton.mp h1)

theorem ruleClaim_err (w : Bool) :
    ∀ (ts : List SStr) (st : Makefile),
      (∃ t ∈ ts, ∃ n, Makefile.target_str w t = Except.ok n ∧ st.has_rule n = true) →
      ∃ st' e, Makefile.ruleClaim w st ts = (st', Except.error e) := by
  intro ts
  induction ts with
  | nil =>
    rintro st ⟨t, ht, -⟩
    simp at ht
  | cons a ts ih =>
    rintro st ⟨t, ht, n, hok, hcl⟩
    cases hra : Makefile.target_str w a with
    | error e => exact ⟨st, e, by rw [Makefile.ruleClaim, hra]⟩
    | ok m =>
      cases hm : st.has_rule m with
      | true =>
        exact ⟨st, "rule already exists", by rw [Makefile.ruleClaim, hra]; simp [hm]⟩
      | false =>
        rcases List.mem_cons.mp ht with rfl | hts
        · rw [hok] at hra
          cases hra
          rw [hcl] at hm
          cases hm
        · have hcl2 : ({ st with targets := st.targets ++ [m] } : Makefile).has_rule n
              = true := by
            rw [has_rule_iff_mem]
            exact List.mem_append_left _ ((has_rule_iff_mem st n).mp hcl)
          obtain ⟨st', e, hst⟩ := ih _ ⟨t, hts, n, hok, hcl2⟩
          refine ⟨st', e, ?_⟩
          rw [Makefile.ruleClaim, hra]
          simp only [hm, Bool.false_eq_true, if_false]
          exact hst

/-- C4 (amended): calling rule() with an empty target list raises; calling
rule() with any target whose rendered target string is already claimed
raises; and a rule() call with a non-empty target list whose targets all
render successfully to pairwise-distinct strings none of which is claimed
succeeds, claiming the rendered names and appending the rule. -/
theorem c4_rule_validation (w : Bool) (st : Makefile) (ts : List SStr)
    (deps oo : List SStr) (rcp : MRecipe) (rvars : List (Chars × ShellVal)) (ph : Bool) :
    (Makefile.rule w st [] deps oo rcp rvars ph =
      (st, Except.error "must have at least one target")) ∧
    ((∃ t ∈ ts, ∃ n, Makefile.target_str w t = Except.ok n ∧ st.has_rule n = true) →
      ∃ st' e, Makefile.rule w st ts deps oo rcp rvars ph = (st', Except.error e)) ∧
    (∀ ns, ts ≠ [] → renderTargets w ts = Except.ok ns → ns.Nodup →
      (∀ n ∈ ns, st.has_rule n = false) →
      Makefile.rule w st ts deps oo rcp rvars ph =
        ({ st with
            targets := st.targets ++ ns
            rules := st.rules ++ [⟨ts, deps, oo, convertRecipe rcp,
              rvars.map (fun p => (mkVariable p.1 false, p.2)), ph⟩] },
         Except.ok ())) := by
  refine ⟨rfl, ?_, ?_⟩
  · rintro ⟨t, ht, n, hok, hcl⟩
    have hne : ts ≠ [] := by
      intro he
      rw [he] at ht
      simp at ht
    obtain ⟨st', e, hst⟩ := ruleClaim_err w ts st ⟨t, ht, n, hok, hcl⟩
    refine ⟨st', e, ?_⟩
    rw [Makefile.rule, if_neg (by simp [hne]), hst]
  · intro ns hne hr hnd hfr
    rw [Makefile.rule, if_neg (by simp [hne]), ruleClaim_ok w ts st ns hr hnd hfr]

/-- C4 witness: the amended success clause applied at a fresh state with
the two distinct targets "a" and "b". -/
theorem c4_rule_validation_witness :
    ([SStr.txt ['a'], SStr.txt ['b']] ≠ ([] : List SStr)) ∧
    renderTargets false [SStr.txt ['a'], SStr.txt ['b']] = Except.ok [['a'], ['b']] ∧
    Makefile.rule false mf0
      [SStr.txt ['a'], SStr.txt ['b']] [] [] MRecipe.noRecipe [] false =
      ({ mf0 with
          targets := mf0.targets ++ [['a'], ['b']]
          rules := mf0.rules ++
            [⟨[SStr.txt ['a'], SStr.txt ['b']], [], [], MRecipe.noRecipe, [], false⟩] },
       Except.ok ()) := by
  refine ⟨by simp, by rfl, ?_⟩
  exact (c4_rule_validation false mf0
    [SStr.txt ['a'], SStr.txt ['b']] [] [] MRecipe.noRecipe [] false).2.2
    [['a'], ['b']] (by simp) (by rfl) (by decide) (by decide)

/-- C4 counterexample: on a fresh Makefile no target has been claimed by
any previously added rule, so the list [txt "a", txt "a"] is a non-empty
list of targets fresh with respect to all previously added rules, yet
rule() raises instead of succeeding as the claim states. -/
theorem c4_rule_duplicate_counterexample :
    mf0.rules = [] ∧
    mf0.targets = [] ∧
    ([SStr.txt ['a'], SStr.txt ['a']] ≠ ([] : List SStr)) ∧
    (Makefile.rule false mf0
      [SStr.txt ['a'], SStr.txt ['a']] [] [] MRecipe.noRecipe [] false).2 =
      Except.error "rule already exists" := by
  refine ⟨rfl, rfl, by simp, by rfl⟩

theorem ruleClaim_claims_front (w : Bool) :
    ∀ (pre : List SStr) (st : Makefile) (ns : List Chars) (rest : List SStr),
      renderTargets w pre = Except.ok ns → ns.Nodup →
      (∀ m ∈ ns, st.has_rule m = false) →
      Makefile.ruleClaim w st (pre ++ rest) =
        Makefile.ruleClaim w { st with targets := st.targets ++ ns } rest := by
  intro pre
  induction pre with
  | nil =>
    intro st ns rest h _ _
    rw [renderTargets] at h
    cases h
    simp
  | cons t ts ih =>
    intro st ns rest h hnd hfr
    rw [renderTargets] at h
    cases hr : Makefile.target_str w t with
    | error e =>
      rw [hr, except_bind_error] at h
      exact absurd h (by simp)
    | ok n =>
      rw [hr, except_bind_ok] at h
      cases hrs : renderTargets w ts with
      | error e =>
        rw [hrs, except_bind_error] at h
        exact absurd h (by simp)
      | ok ns' =>
        rw [hrs, except_bind_ok] at h
        cases h
        have hn : st.has_rule n = false := hfr n (List.mem_cons_self _ _)
        rw [List.cons_append, Makefile.ruleClaim, hr]
        simp only [hn, Bool.false_eq_true, if_false]
        rw [ih _ ns' rest hrs (List.nodup_cons.mp hnd).2 ?_]
        · simp [List.append_assoc]
        · intro m hm
          have hm1 : st.has_rule m = false := hfr m (List.mem_cons_of_mem _ hm)
          have hm2 : m ≠ n := fun he => (List.nodup_cons.mp hnd).1 (he ▸ hm)
          rw [← Bool.not_eq_true, has_rule_iff_mem]
          intro hmem
          rcases List.mem_append.mp hmem with h1 | h1
          · rw [← Bool.not_eq_true, has_rule_iff_mem] at hm1
            exact hm1 h1
          · exact hm2 (List.mem_singleton.mp h1)

/-- C9: the claiming loop registers rendered targets one at a time: for a
rule() call whose target list begins with any number of fresh,
pairwise-distinct targets followed by a target whose rendered string is
already claimed — by a previously added rule, or by one of the earlier
targets of this same call (a duplicate within the call) — the call
raises on that target, whatever targets follow, and the returned state
keeps every earlier target of the failed call registered in the claimed
set (no rollback). -/
theorem c9_rule_no_rollback (w : Bool) (st : Makefile) (pre : List SStr)
    (t : SStr) (rest : List SStr) (ns : List Chars) (n : Chars)
    (deps oo : List SStr) (rcp : MRecipe) (rvars : List (Chars × ShellVal)) (ph : Bool)
    (hpre : renderTargets w pre = Except.ok ns) (hnd : ns.Nodup)
    (hfresh : ∀ m ∈ ns, st.has_rule m = false)
    (ht : Makefile.target_str w t = Except.ok n)
    (hclaimed : st.has_rule n = true ∨ n ∈ ns) :
    Makefile.rule w st (pre ++ t :: rest) deps oo rcp rvars ph =
      ({ st with targets := st.targets ++ ns }, Except.error "rule already exists") := by
  have hne : (pre ++ t :: rest).isEmpty = false := by
    cases pre <;> rfl
  have hcl : ({ st with targets := st.targets ++ ns } : Makefile).has_rule n = true := by
    rw [has_rule_iff_mem]
    rcases hclaimed with h | h
    · exact List.mem_append_left _ ((has_rule_iff_mem st n).mp h)
    · exact List.mem_append_right _ h
  rw [Makefile.rule]
  simp only [hne, Bool.false_eq_true, if_false]
  rw [ruleClaim_claims_front w pre st ns (t :: rest) hpre hnd hfresh]
  rw [Makefile.ruleClaim, ht]
  simp only [hcl, if_true]

/-- C9 witness: the theorem applied at a fresh state to the four-target
call rule(['a','b','a','c']): the duplicate third target raises and the
failed call leaves its first two targets "a" and "b" claimed. -/
theorem c9_rule_no_rollback_witness :
    renderTargets false [SStr.txt ['a'], SStr.txt ['b']] = Except.ok [['a'], ['b']] ∧
    Makefile.target_str false (SStr.txt ['a']) = Except.ok ['a'] ∧
    Makefile.rule false mf0
      [SStr.txt ['a'], SStr.txt ['b'], SStr.txt ['a'], SStr.txt ['c']]
      [] [] MRecipe.noRecipe [] false =
      ({ mf0 with targets := mf0.targets ++ [['a'], ['b']] },
       Except.error "rule already exists") :=
  ⟨by rfl, by rfl,
   c9_rule_no_rollback false mf0 [SStr.txt ['a'], SStr.txt ['b']] (SStr.txt ['a'])
     [SStr.txt ['c']] [['a'], ['b']] ['a'] [] [] MRecipe.noRecipe [] false
     (by rfl) (by decide) (by decide) (by rfl) (Or.inr (by decide))⟩

/-- C7: when a link edge's inputs span multiple source languages the
lookup returns the linker registered for c++ under the requested mode
whenever 'c++' is a member of the language set, and the linker registered
for c otherwise; a single language given as a string returns the linker
registered for exactly that language and mode. -/
theorem c7_linker_lookup {L : Type} (tbl : Chars → Chars → Option L) (mode : Chars) :
    (∀ langs, "c++".toList ∈ langs →
      Environment.linker tbl (LangSpec.multi langs) mode = tbl mode ("c++".toList)) ∧
    (∀ langs, "c++".toList ∉ langs →
      Environment.linker tbl (LangSpec.multi langs) mode = tbl mode ("c".toList)) ∧
    (∀ lang, Environment.linker tbl (LangSpec.single lang) mode = tbl mode lang) := by
  refine ⟨?_, ?_, fun lang => rfl⟩
  · intro langs h
    rw [Environment.linker, if_pos h]
  · intro langs h
    rw [Environment.linker, if_neg h]

/-- C7 witness: the theorem applied at a concrete table, mode and
language sets. -/
theorem c7_linker_lookup_witness :
    ("c++".toList ∈ ["c".toList, "c++".toList]) ∧
    Environment.linker linkerTblW (LangSpec.multi ["c".toList, "c++".toList])
      ("executable".toList) = linkerTblW ("executable".toList) ("c++".toList) ∧
    ("c++".toList ∉ ["c".toList]) ∧
    Environment.linker linkerTblW (LangSpec.multi ["c".toList]) ("executable".toList) =
      linkerTblW ("executable".toList) ("c".toList) :=
  ⟨by decide, (c7_linker_lookup linkerTblW ("executable".toList)).1 _ (by decide),
   by decide, (c7_linker_lookup linkerTblW ("executable".toList)).2.1 _ (by decide)⟩

/-- C8: for every name, the MSVC shared-library linker's output_file
returns at least two artifacts — the DLL binary, its import library and
its export file — the import library carrying the same object format and
language as the primary binary, so can_link evaluates identically on
the import library's format and language set and on the primary
binary's. -/
theorem c8_msvc_shared_outputs (ext fmt lang name : Chars) :
    2 ≤ (msvc_shared_library_output ext fmt lang name).length ∧
    ∃ d : DllBinary,
      msvc_shared_library_output ext fmt lang name =
        [MsvcArtifact.dllOut d, MsvcArtifact.impOut d.import_lib,
          MsvcArtifact.expOut d.export_file] ∧
      d.import_lib.format = d.format ∧
      d.import_lib.lang = d.lang ∧
      (∀ sl bf, msvc_can_link sl bf d.import_lib.format [d.import_lib.lang] =
        msvc_can_link sl bf d.format [d.lang]) := by
  exact ⟨by simp [msvc_shared_library_output],
    ⟨⟨name ++ ext, fmt, lang, name ++ ".lib".toList, name ++ ".exp".toList⟩,
      rfl, rfl, rfl, fun sl bf => rfl⟩⟩
